import Mathlib

set_option maxRecDepth 8000

/-!
Shallow embedding of the document-processing core of `src/bert-ocr.py`:
the word-window chunker `chunk_text`, the recursive summarization reducer
`summarize_large_text`, and the entity aggregator `extract_legal_entities`.

Texts are lists of characters.  Python's `str.split()` is `pySplit`,
`" ".join` is `joinWords`, Python slicing is `pySlice`, `str.strip` is
`pyStrip` / `pyStripWs`, and `str.replace("##", "")` is `removeHashes`.

The `while` loop of `chunk_text` need not terminate (when
`chunk_size - overlap <= 0` and the word list is non-empty), so the loop
body is modelled by the fuel-indexed `chunkLoopFuel`; `chunk_text` runs it
with fuel `number-of-words + 1`, which is proved sufficient whenever the
Python loop terminates (`chunkLoopFuel_eq_chunkWords`), and `none` models
a loop that never returns (`chunkLoopFuel_eq_none_of_stride_nonpos`).
Likewise the unbounded recursion of `summarize_large_text` is modelled
with a round-count fuel, `none` meaning that no result is ever returned.
-/

abbrev Text : Type := List Char

def isSpace (c : Char) : Bool := c.isWhitespace

def strL (s : String) : Text := s.data

/-- Worker for `pySplit`: `acc` is the reversed prefix of the current word. -/
def pySplitAux : Text → Text → List Text
  | acc, [] => if acc = [] then [] else [acc.reverse]
  | acc, c :: cs =>
    if isSpace c then
      if acc = [] then pySplitAux [] cs else acc.reverse :: pySplitAux [] cs
    else pySplitAux (c :: acc) cs

/-- Python `text.split()`: the maximal whitespace-free runs of `t`, in order. -/
def pySplit (t : Text) : List Text := pySplitAux [] t

/-- Python `" ".join(ws)`. -/
def joinWords : List Text → Text
  | [] => []
  | [w] => w
  | w :: ws => w ++ ' ' :: joinWords ws

/-- Normalization of a Python slice index to an absolute position in `[0, n]`. -/
def pyIndex (n : ℕ) (i : ℤ) : ℕ :=
  if i < 0 then (i + n).toNat else min i.toNat n

/-- Python `l[s:e]`. -/
def pySlice (l : List α) (s e : ℤ) : List α :=
  (l.take (pyIndex l.length e)).drop (pyIndex l.length s)

/-- The `while start < len(words)` loop of `chunk_text` (src/bert-ocr.py,
lines 54-58), with an explicit fuel bound on the number of iterations.
`start` is an integer because `chunk_size - overlap` may be negative. -/
def chunkLoopFuel (words : List Text) (cs ov : ℕ) : ℕ → ℤ → Option (List Text)
  | 0, _ => none
  | fuel + 1, start =>
    if start < (words.length : ℤ) then
      (chunkLoopFuel words cs ov fuel (start + ((cs : ℤ) - (ov : ℤ)))).map
        (fun rest => joinWords (pySlice words start (start + (cs : ℤ))) :: rest)
    else some []

/-- `chunk_text(text, chunk_size, overlap)` (src/bert-ocr.py, lines 51-59).
Fuel `pySplit text |>.length + 1` is sufficient for every terminating run of
the Python loop; `none` means the Python loop never returns. -/
def chunk_text (text : Text) (cs ov : ℕ) : Option (List Text) :=
  chunkLoopFuel (pySplit text) cs ov ((pySplit text).length + 1) 0

/-- The chunk list produced by `chunk_text`'s loop in the terminating case
`overlap < chunk_size`, as a structurally transparent recursion. -/
def chunkWords (words : List Text) (cs ov : ℕ) (h : ov < cs) (start : ℕ) : List Text :=
  if start < words.length then
    joinWords ((words.drop start).take cs) :: chunkWords words cs ov h (start + (cs - ov))
  else []
termination_by words.length - start
decreasing_by omega

/-- Collapse internal whitespace runs to single spaces and drop a trailing
run (the input is assumed to have no leading whitespace). -/
def squeeze : Text → Text
  | [] => []
  | [c] => if isSpace c then [] else [c]
  | c :: d :: cs =>
    if isSpace c then
      if isSpace d then squeeze (d :: cs) else ' ' :: squeeze (d :: cs)
    else c :: squeeze (d :: cs)

/-- Whitespace normalization: every whitespace run becomes a single space
and leading/trailing whitespace is removed. -/
def normWs (t : Text) : Text := squeeze (t.dropWhile isSpace)

/-- Python `v.replace('##', '')`: left-to-right removal of the
sub-token continuation marker. -/
def removeHashes : Text → Text
  | '#' :: '#' :: rest => removeHashes rest
  | c :: rest => c :: removeHashes rest
  | [] => []

/-- Python `v.strip(cset)`: remove the characters of `cset` from both ends. -/
def pyStrip (cset : List Char) (s : Text) : Text :=
  ((s.dropWhile (fun c => cset.contains c)).reverse.dropWhile
    (fun c => cset.contains c)).reverse

/-- Python `v.strip()`: remove whitespace from both ends. -/
def pyStripWs (s : Text) : Text :=
  ((s.dropWhile isSpace).reverse.dropWhile isSpace).reverse

/-- The character set of the cleanup `v.strip(" ,.'")` in
`extract_legal_entities` (src/bert-ocr.py, line 102). -/
def stripSet : List Char := [' ', ',', '.', '\'']

/-- All `(entity, word)` results of running the NER capability over the
chunks, in order (src/bert-ocr.py, lines 92-94). -/
def nerSpans (fn : Text → List (Text × Text)) (chunks : List Text) : List (Text × Text) :=
  (chunks.map fn).flatten

/-- The raw per-type value set accumulated by the chunk loop of
`extract_legal_entities` (lines 94-99): each stored value is
`r.word.replace('##','')` for a span `r` of the given type.  A type with
no spans is modelled as the empty set (in Python, an absent key). -/
def rawEntities (fn : Text → List (Text × Text)) (chunks : List Text) (t : Text) :
    Finset Text :=
  (((nerSpans fn chunks).filter (fun p => decide (p.1 = t))).map
    (fun p => removeHashes p.2)).toFinset

/-- The cleanup pass of `extract_legal_entities` (lines 101-102):
`set([v.strip(" ,.'") for v in entities[k] if v.strip()])`. -/
def cleanEntities (s : Finset Text) : Finset Text :=
  (s.filter (fun v => pyStripWs v ≠ [])).image (fun v => pyStrip stripSet v)

/-- `extract_legal_entities(text, chunk_size)` (src/bert-ocr.py, lines 89-103),
with the NER pipeline as an injected capability.  The chunking overlap is
the default `200` of `chunk_text`, as in the source call on line 90. -/
def extract_legal_entities (fn : Text → List (Text × Text)) (text : Text) (cs : ℕ) :
    Option (Text → Finset Text) :=
  (chunk_text text cs 200).map (fun chunks => fun t => cleanEntities (rawEntities fn chunks t))

/-- `summarize_large_text(text, max_chunk_words)` (src/bert-ocr.py, lines
68-81), with the summarizer as an injected capability that may fail
(`none` models the `except: continue` branch) and an explicit fuel on the
number of recursion rounds; a result of `none` means the Python function
never returns (its chunking loop diverges or the recursion never exits).
The chunking overlap is the default `200`, as in the source call on line 69. -/
def summarize_large_text (fn : Text → Option Text) (maxw : ℕ) : ℕ → Text → Option Text
  | 0, _ => none
  | fuel + 1, text =>
    match chunk_text text maxw 200 with
    | none => none
    | some chunks =>
      let combined := joinWords (chunks.filterMap fn)
      if maxw < (pySplit combined).length then summarize_large_text fn maxw fuel combined
      else some combined

/-! ### Properties of `pySplit` and `joinWords` -/

/-- A word as produced by `str.split()`: non-empty and whitespace-free. -/
def goodWord (w : Text) : Prop := w ≠ [] ∧ ∀ c ∈ w, isSpace c = false

theorem pySplit_nil : pySplit [] = [] := rfl

theorem pySplit_cons_space {c : Char} (hc : isSpace c = true) (cs : Text) :
    pySplit (c :: cs) = pySplit cs := by
  simp [pySplit, pySplitAux, hc]

theorem pySplitAux_ne_nil_acc {acc : Text} (t : Text) (hacc : acc ≠ []) :
    pySplitAux acc t =
      (acc.reverse ++ t.takeWhile (fun x => !isSpace x)) ::
        pySplit (t.dropWhile (fun x => !isSpace x)) := by
  induction t generalizing acc with
  | nil => simp [pySplitAux, hacc, pySplit]
  | cons c cs ih =>
    cases hc : isSpace c with
    | true =>
      simp [pySplitAux, hc, hacc, List.takeWhile_cons, List.dropWhile_cons, pySplit,
        pySplit_cons_space hc]
    | false =>
      simp only [pySplitAux, hc, Bool.false_eq_true, if_false]
      rw [ih (by simp)]
      simp [List.takeWhile_cons, List.dropWhile_cons, hc]

theorem pySplit_cons_nonspace {c : Char} (hc : isSpace c = false) (cs : Text) :
    pySplit (c :: cs) =
      (c :: cs.takeWhile (fun x => !isSpace x)) ::
        pySplit (cs.dropWhile (fun x => !isSpace x)) := by
  simp only [pySplit, pySplitAux, hc, Bool.false_eq_true, if_false]
  rw [pySplitAux_ne_nil_acc cs (by simp)]
  simp [pySplit]

theorem pySplitAux_good {t acc : Text} (hacc : ∀ c ∈ acc, isSpace c = false) :
    ∀ w ∈ pySplitAux acc t, goodWord w := by
  induction t generalizing acc with
  | nil =>
    intro w hw
    by_cases h : acc = []
    · simp [pySplitAux, h] at hw
    · simp [pySplitAux, h] at hw
      subst hw
      exact ⟨by simpa using h, fun c hc => hacc c (by simpa using hc)⟩
  | cons c cs ih =>
    intro w hw
    cases hc : isSpace c with
    | true =>
      by_cases h : acc = []
      · simp only [pySplitAux, hc, if_true, h, if_pos rfl] at hw
        exact ih (by simp) w hw
      · simp only [pySplitAux, hc, if_true, if_neg h, List.mem_cons] at hw
        rcases hw with hw | hw
        · subst hw
          exact ⟨by simpa using h, fun x hx => hacc x (by simpa using hx)⟩
        · exact ih (by simp) w hw
    | false =>
      simp only [pySplitAux, hc, Bool.false_eq_true, if_false] at hw
      refine ih ?_ w hw
      intro x hx
      rcases List.mem_cons.mp hx with h | h
      · subst h; exact hc
      · exact hacc x h

theorem pySplit_good (t : Text) : ∀ w ∈ pySplit t, goodWord w :=
  pySplitAux_good (by simp)

theorem pySplitAux_append_space {s : Char} (hs : isSpace s = true) (b : Text) :
    ∀ (a acc : Text), pySplitAux acc (a ++ s :: b) = pySplitAux acc a ++ pySplit b := by
  intro a
  induction a with
  | nil =>
    intro acc
    by_cases h : acc = []
    · simp [pySplitAux, hs, h, pySplit]
    · simp [pySplitAux, hs, h, pySplit]
  | cons c cs ih =>
    intro acc
    cases hc : isSpace c with
    | true =>
      by_cases h : acc = []
      · simp only [List.cons_append, pySplitAux, hc, if_true, h, if_pos rfl,
          List.append_eq, ih]
      · simp only [List.cons_append, pySplitAux, hc, if_true, if_neg h,
          List.append_eq, ih, List.cons_append]
    | false =>
      simp only [List.cons_append, pySplitAux, hc, Bool.false_eq_true, if_false,
        List.append_eq, ih]

theorem pySplit_append_space {s : Char} (hs : isSpace s = true) (a b : Text) :
    pySplit (a ++ s :: b) = pySplit a ++ pySplit b :=
  pySplitAux_append_space hs b a []

theorem pySplitAux_all_nonspace {t : Text} (ht : ∀ c ∈ t, isSpace c = false) :
    ∀ acc : Text, pySplitAux acc t =
      if acc.reverse ++ t = [] then [] else [acc.reverse ++ t] := by
  induction t with
  | nil => intro acc; by_cases h : acc = [] <;> simp [pySplitAux, h]
  | cons c cs ih =>
    intro acc
    have hc : isSpace c = false := ht c (by simp)
    simp only [pySplitAux, hc, Bool.false_eq_true, if_false]
    rw [ih (fun x hx => ht x (List.mem_cons_of_mem _ hx))]
    simp

theorem pySplit_goodWord {w : Text} (hw : goodWord w) : pySplit w = [w] := by
  unfold pySplit
  rw [pySplitAux_all_nonspace hw.2]
  simp [hw.1]

theorem joinWords_cons {w : Text} {ws : List Text} (h : ws ≠ []) :
    joinWords (w :: ws) = w ++ ' ' :: joinWords ws := by
  cases ws with
  | nil => exact absurd rfl h
  | cons w' ws' => rfl

theorem pySplit_joinWords {ws : List Text} (h : ∀ w ∈ ws, goodWord w) :
    pySplit (joinWords ws) = ws := by
  induction ws with
  | nil => rfl
  | cons w ws ih =>
    cases ws with
    | nil => simpa [joinWords] using pySplit_goodWord (h w (by simp))
    | cons w' ws' =>
      rw [joinWords_cons (by simp), pySplit_append_space (by decide),
        pySplit_goodWord (h w (by simp)), ih (fun x hx => h x (List.mem_cons_of_mem _ hx))]
      rfl

theorem pySplit_joinWords_flatten (ts : List Text) :
    pySplit (joinWords ts) = (ts.map pySplit).flatten := by
  induction ts with
  | nil => rfl
  | cons t ts ih =>
    cases ts with
    | nil => simp [joinWords]
    | cons t' ts' =>
      rw [joinWords_cons (by simp), pySplit_append_space (by decide), ih]
      simp

theorem pySplit_dropWhile_space (t : Text) :
    pySplit (t.dropWhile isSpace) = pySplit t := by
  induction t with
  | nil => rfl
  | cons c cs ih =>
    by_cases hc : isSpace c = true
    · rw [List.dropWhile_cons_of_pos hc, ih, pySplit_cons_space hc]
    · rw [List.dropWhile_cons_of_neg (by simp [hc])]

theorem pySplit_ne_nil {c : Char} (hc : isSpace c = false) (cs : Text) :
    pySplit (c :: cs) ≠ [] := by
  rw [pySplit_cons_nonspace hc]
  simp

/-! ### Whitespace normalization -/

theorem dropWhile_head_false (p : α → Bool) :
    ∀ {l : List α} {c : α} {r : List α}, l.dropWhile p = c :: r → p c = false := by
  intro l
  induction l with
  | nil => intro c r h; simp at h
  | cons a l' ih =>
    intro c r h
    cases ha : p a with
    | true => rw [List.dropWhile_cons_of_pos ha] at h; exact ih h
    | false =>
      rw [List.dropWhile_cons_of_neg (by simp [ha])] at h
      cases h; exact ha

theorem length_dropWhile_le' (p : α → Bool) (l : List α) :
    (l.dropWhile p).length ≤ l.length := by
  induction l with
  | nil => simp
  | cons a l' ih =>
    cases ha : p a with
    | true => rw [List.dropWhile_cons_of_pos ha]; exact Nat.le_succ_of_le ih
    | false => rw [List.dropWhile_cons_of_neg (by simp [ha])]

theorem squeeze_cons_nonspace {c : Char} (hc : isSpace c = false) (t : Text) :
    squeeze (c :: t) = c :: squeeze t := by
  cases t with
  | nil => simp [squeeze, hc]
  | cons d cs => simp [squeeze, hc]

theorem squeeze_cons_space :
    ∀ (t : Text) (c : Char), isSpace c = true →
      squeeze (c :: t) =
        if t.dropWhile isSpace = [] then [] else ' ' :: squeeze (t.dropWhile isSpace) := by
  intro t
  induction t with
  | nil => intro c hc; simp [squeeze, hc]
  | cons d cs ih =>
    intro c hc
    cases hd : isSpace d with
    | true =>
      have h1 : squeeze (c :: d :: cs) = squeeze (d :: cs) := by simp [squeeze, hc, hd]
      rw [h1, ih d hd, List.dropWhile_cons_of_pos hd]
    | false =>
      have h1 : squeeze (c :: d :: cs) = ' ' :: squeeze (d :: cs) := by
        simp [squeeze, hc, hd]
      rw [h1, List.dropWhile_cons_of_neg (by simp [hd])]
      simp

theorem squeeze_word_append {w : Text} (hw : ∀ c ∈ w, isSpace c = false) (t : Text) :
    squeeze (w ++ t) = w ++ squeeze t := by
  induction w with
  | nil => simp
  | cons c cs ih =>
    rw [List.cons_append, squeeze_cons_nonspace (hw c (by simp)),
      ih (fun x hx => hw x (List.mem_cons_of_mem _ hx))]
    rfl

theorem squeeze_eq_joinWords_aux :
    ∀ (n : ℕ) (t : Text), t.length ≤ n →
      (∀ c, t.head? = some c → isSpace c = false) →
      squeeze t = joinWords (pySplit t) := by
  intro n
  induction n with
  | zero =>
    intro t ht _
    have : t = [] := List.length_eq_zero.mp (Nat.le_zero.mp ht)
    subst this; rfl
  | succ n ih =>
    intro t ht hhead
    cases t with
    | nil => rfl
    | cons c cs =>
      have hc : isSpace c = false := hhead c rfl
      have hw_all : ∀ x ∈ (c :: cs).takeWhile (fun x => !isSpace x), isSpace x = false := by
        intro x hx
        have := List.mem_takeWhile_imp hx
        simpa using this
      have hsplit :
          (c :: cs : Text) =
            (c :: cs).takeWhile (fun x => !isSpace x) ++
              (c :: cs).dropWhile (fun x => !isSpace x) :=
        (List.takeWhile_append_dropWhile _ _).symm
      have htw : (c :: cs).takeWhile (fun x => !isSpace x)
          = c :: cs.takeWhile (fun x => !isSpace x) :=
        List.takeWhile_cons_of_pos (by simp [hc])
      have hdw : (c :: cs).dropWhile (fun x => !isSpace x)
          = cs.dropWhile (fun x => !isSpace x) :=
        List.dropWhile_cons_of_pos (by simp [hc])
      rw [pySplit_cons_nonspace hc]
      conv_lhs => rw [hsplit]
      rw [squeeze_word_append hw_all, hdw, htw]
      cases hr : cs.dropWhile (fun x => !isSpace x) with
      | nil => simp [squeeze, joinWords]
      | cons s r' =>
        have hs : isSpace s = true := by
          have := dropWhile_head_false (fun x => !isSpace x) hr
          simpa using this
        rw [squeeze_cons_space r' s hs]
        rw [← pySplit_dropWhile_space (s :: r'), List.dropWhile_cons_of_pos hs]
        cases hu : r'.dropWhile isSpace with
        | nil => simp [joinWords]
        | cons d u' =>
          have hd : isSpace d = false := dropWhile_head_false _ hu
          have hlen : (r'.dropWhile isSpace).length ≤ n := by
            have h1 : (r'.dropWhile isSpace).length ≤ r'.length :=
              length_dropWhile_le' _ _
            have h2 : (cs.dropWhile (fun x => !isSpace x)).length ≤ cs.length :=
              length_dropWhile_le' _ _
            rw [hr] at h2
            simp only [List.length_cons] at h2 ht
            omega
          have hrec := ih (r'.dropWhile isSpace) hlen
            (by intro x hx; rw [hu] at hx; cases hx; exact hd)
          rw [hu] at hrec
          rw [if_neg (by simp), hrec, joinWords_cons (pySplit_ne_nil hd u')]

theorem normWs_eq_joinWords (t : Text) : normWs t = joinWords (pySplit t) := by
  unfold normWs
  rw [squeeze_eq_joinWords_aux (t.dropWhile isSpace).length _ le_rfl
    (by intro c hc
        cases h : t.dropWhile isSpace with
        | nil => rw [h] at hc; simp at hc
        | cons a r =>
          rw [h] at hc
          simp only [List.head?_cons, Option.some.injEq] at hc
          subst hc
          exact dropWhile_head_false _ h)]
  rw [pySplit_dropWhile_space]

theorem pySplit_normWs (t : Text) : pySplit (normWs t) = pySplit t := by
  rw [normWs_eq_joinWords, pySplit_joinWords (pySplit_good t)]

/-! ### The chunking loop -/

theorem pySlice_nat (l : List α) (s cs : ℕ) :
    pySlice l (s : ℤ) ((s : ℤ) + (cs : ℤ)) = (l.drop s).take cs := by
  unfold pySlice pyIndex
  have h1 : ¬((s : ℤ) < 0) := by omega
  have h2 : ¬((s : ℤ) + (cs : ℤ) < 0) := by omega
  rw [if_neg h1, if_neg h2]
  have h3 : ((s : ℤ) + (cs : ℤ)).toNat = s + cs := by omega
  have h4 : (s : ℤ).toNat = s := by omega
  rw [h3, h4]
  by_cases hs : s ≤ l.length
  · rw [Nat.min_eq_left hs, List.drop_take]
    by_cases he : s + cs ≤ l.length
    · rw [Nat.min_eq_left he]
      congr 1
      omega
    · rw [Nat.min_eq_right (by omega),
        List.take_of_length_le (by simp only [List.length_drop]; omega),
        List.take_of_length_le (by simp only [List.length_drop]; omega)]
  · rw [Nat.min_eq_right (by omega), Nat.min_eq_right (by omega)]
    rw [List.drop_eq_nil_of_le (by simp), List.drop_eq_nil_of_le (by omega)]
    simp

theorem chunkLoopFuel_eq_chunkWords {words : List Text} {cs ov : ℕ} (h : ov < cs) :
    ∀ (fuel start : ℕ), words.length - start < fuel →
      chunkLoopFuel words cs ov fuel (start : ℤ) =
        some (chunkWords words cs ov h start) := by
  intro fuel
  induction fuel with
  | zero => intro start hf; omega
  | succ fuel ih =>
    intro start hf
    rw [chunkWords]
    by_cases hlt : start < words.length
    · have hcast : ((start : ℤ) < (words.length : ℤ)) := by exact_mod_cast hlt
      simp only [chunkLoopFuel, if_pos hcast]
      have hstride : (start : ℤ) + ((cs : ℤ) - (ov : ℤ)) = ((start + (cs - ov) : ℕ) : ℤ) := by
        push_cast [Nat.cast_sub (Nat.le_of_lt h)]
        ring
      rw [hstride, ih (start + (cs - ov)) (by omega)]
      rw [if_pos hlt]
      simp only [Option.map_some']
      rw [pySlice_nat words start cs]
    · have hcast : ¬((start : ℤ) < (words.length : ℤ)) := by exact_mod_cast hlt
      simp only [chunkLoopFuel, if_neg hcast, if_neg hlt]

theorem chunk_text_eq_chunkWords (text : Text) {cs ov : ℕ} (h : ov < cs) :
    chunk_text text cs ov = some (chunkWords (pySplit text) cs ov h 0) := by
  unfold chunk_text
  exact_mod_cast chunkLoopFuel_eq_chunkWords h ((pySplit text).length + 1) 0 (by omega)

theorem chunkLoopFuel_eq_none_of_stride_nonpos {words : List Text} {cs ov : ℕ}
    (h : (cs : ℤ) - (ov : ℤ) ≤ 0) :
    ∀ (fuel : ℕ) (start : ℤ), start < (words.length : ℤ) →
      chunkLoopFuel words cs ov fuel start = none := by
  intro fuel
  induction fuel with
  | zero => intro start _; rfl
  | succ fuel ih =>
    intro start hlt
    simp only [chunkLoopFuel, if_pos hlt]
    rw [ih (start + ((cs : ℤ) - (ov : ℤ))) (by omega)]
    rfl

theorem chunkWords_getElem? (words : List Text) {cs ov : ℕ} (h : ov < cs) :
    ∀ (k start : ℕ),
      (chunkWords words cs ov h start)[k]? =
        if start + k * (cs - ov) < words.length then
          some (joinWords ((words.drop (start + k * (cs - ov))).take cs))
        else none := by
  intro k
  induction k with
  | zero =>
    intro start
    rw [chunkWords]
    by_cases hlt : start < words.length
    · rw [if_pos hlt]
      simp [hlt]
    · rw [if_neg hlt]
      simp [hlt]
  | succ k ih =>
    intro start
    rw [chunkWords]
    by_cases hlt : start < words.length
    · rw [if_pos hlt]
      simp only [List.getElem?_cons_succ]
      rw [ih (start + (cs - ov))]
      have harith : start + (cs - ov) + k * (cs - ov) = start + (k + 1) * (cs - ov) := by
        rw [Nat.succ_mul]; omega
      rw [harith]
    · rw [if_neg hlt]
      rw [if_neg (by omega)]
      simp

theorem chunkWords_lt_length_iff {words : List Text} {cs ov : ℕ} (h : ov < cs)
    (k start : ℕ) :
    k < (chunkWords words cs ov h start).length ↔
      start + k * (cs - ov) < words.length := by
  constructor
  · intro hk
    by_contra hcond
    have hthis := chunkWords_getElem? words h k start
    rw [if_neg hcond] at hthis
    rw [List.getElem?_eq_none_iff] at hthis
    omega
  · intro hcond
    by_contra hk
    have hthis := chunkWords_getElem? words h k start
    rw [if_pos hcond] at hthis
    rw [List.getElem?_eq_none (by omega)] at hthis
    exact Option.noConfusion hthis

theorem chunkLoopFuel_chunks_joined {words : List Text} {cs ov : ℕ}
    (hgood : ∀ w ∈ words, goodWord w) :
    ∀ (fuel : ℕ) (start : ℤ) (chunks : List Text),
      chunkLoopFuel words cs ov fuel start = some chunks →
      ∀ c ∈ chunks, ∃ ws : List Text, (∀ w ∈ ws, goodWord w) ∧ c = joinWords ws := by
  intro fuel
  induction fuel with
  | zero => intro start chunks hc; exact absurd hc (by simp [chunkLoopFuel])
  | succ fuel ih =>
    intro start chunks hc c hmem
    by_cases hlt : start < (words.length : ℤ)
    · simp only [chunkLoopFuel, if_pos hlt] at hc
      cases hrec : chunkLoopFuel words cs ov fuel (start + ((cs : ℤ) - (ov : ℤ))) with
      | none => rw [hrec] at hc; exact absurd hc (by simp)
      | some rest =>
        rw [hrec] at hc
        simp only [Option.map_some', Option.some.injEq] at hc
        subst hc
        rcases List.mem_cons.mp hmem with hcase | hcase
        · refine ⟨pySlice words start (start + (cs : ℤ)), ?_, hcase⟩
          intro w hw
          unfold pySlice at hw
          exact hgood w (List.mem_of_mem_take (List.mem_of_mem_drop hw))
        · exact ih _ rest hrec c hcase
    · simp only [chunkLoopFuel, if_neg hlt, Option.some.injEq] at hc
      subst hc
      simp at hmem

/-! ### Claim theorems about the chunker -/

/-- C1: the spec demands that configurations with `overlap >= window_size`
be rejected with an `InvalidConfiguration` failure instead of looping.
The code has no such check: for any such configuration and any text with
at least one word, the `while` loop of `chunk_text` never exits (it yields
no chunk list for any iteration bound whatsoever), so the function neither
raises a configuration error nor returns. -/
theorem chunk_text_overlap_ge_window_never_returns (text : Text) (cs ov : ℕ)
    (hov : cs ≤ ov) (hne : pySplit text ≠ []) :
    (∀ fuel : ℕ, chunkLoopFuel (pySplit text) cs ov fuel 0 = none) ∧
      chunk_text text cs ov = none := by
  have hstride : (cs : ℤ) - (ov : ℤ) ≤ 0 := by omega
  have hlen : 0 < (pySplit text).length := List.length_pos.mpr hne
  have hall : ∀ fuel : ℕ, chunkLoopFuel (pySplit text) cs ov fuel 0 = none := by
    intro fuel
    exact chunkLoopFuel_eq_none_of_stride_nonpos hstride fuel 0 (by exact_mod_cast hlen)
  exact ⟨hall, hall _⟩

/-- Witness for C1 at `text = "a"`, `window_size = 1`, `overlap = 1`. -/
theorem chunk_text_overlap_ge_window_never_returns_witness :
    (∀ fuel : ℕ, chunkLoopFuel (pySplit (strL "a")) 1 1 fuel 0 = none) ∧
      chunk_text (strL "a") 1 1 = none :=
  chunk_text_overlap_ge_window_never_returns (strL "a") 1 1 (by decide) (by decide)

/-- C3: for a valid configuration, chunk `k` is exactly the word window
`[k*stride, k*stride + window_size)` of the split input, and every word
index lies in at least one chunk's window (no gaps). -/
theorem chunk_text_window_decomposition (text : Text) (cs ov : ℕ) (h : ov < cs)
    (_hne : pySplit text ≠ []) (chunks : List Text)
    (hc : chunk_text text cs ov = some chunks) :
    (∀ k, k < chunks.length →
        chunks[k]? = some (joinWords (((pySplit text).drop (k * (cs - ov))).take cs))) ∧
    (∀ i, i < (pySplit text).length →
        ∃ k, k < chunks.length ∧ k * (cs - ov) ≤ i ∧ i < k * (cs - ov) + cs) := by
  rw [chunk_text_eq_chunkWords text h, Option.some.injEq] at hc
  subst hc
  constructor
  · intro k hk
    have hcond := (chunkWords_lt_length_iff h k 0).mp hk
    rw [Nat.zero_add] at hcond
    rw [chunkWords_getElem? (pySplit text) h k 0, if_pos (by omega)]
    rw [Nat.zero_add]
  · intro i hi
    have hstride : 0 < cs - ov := by omega
    refine ⟨i / (cs - ov), ?_, ?_, ?_⟩
    · rw [chunkWords_lt_length_iff h _ 0, Nat.zero_add]
      calc i / (cs - ov) * (cs - ov) ≤ i := Nat.div_mul_le_self i (cs - ov)
        _ < (pySplit text).length := hi
    · exact Nat.div_mul_le_self i (cs - ov)
    · have hmod := Nat.div_add_mod i (cs - ov)
      have hlt := Nat.mod_lt i hstride
      have hcomm : i / (cs - ov) * (cs - ov) = (cs - ov) * (i / (cs - ov)) :=
        Nat.mul_comm _ _
      omega

/-- Witness for C3 at `text = "a b c"`, `window_size = 2`, `overlap = 1`. -/
theorem chunk_text_window_decomposition_witness :
    (∀ k, k < ([strL "a b", strL "b c", strL "c"] : List Text).length →
        ([strL "a b", strL "b c", strL "c"] : List Text)[k]? =
          some (joinWords (((pySplit (strL "a b c")).drop (k * (2 - 1))).take 2))) ∧
    (∀ i, i < (pySplit (strL "a b c")).length →
        ∃ k, k < ([strL "a b", strL "b c", strL "c"] : List Text).length ∧
          k * (2 - 1) ≤ i ∧ i < k * (2 - 1) + 2) :=
  chunk_text_window_decomposition (strL "a b c") 2 1 (by decide) (by decide)
    [strL "a b", strL "b c", strL "c"] (by decide)

/-- C7 counterexample: the input `"a b"` has 2 words, fewer than the window
size 3, yet with overlap 2 the chunker returns two chunks, not one. -/
theorem chunk_text_short_input_two_chunks :
    chunk_text (strL "a b") 3 2 = some [strL "a b", strL "b"] ∧
      (pySplit (strL "a b")).length < 3 := by decide

/-- C7 amended: for a valid configuration the chunker returns zero chunks
on input with no words, and returns exactly one chunk (containing all the
words) when the word count is positive and at most the stride
`window_size - overlap` (for input merely shorter than `window_size` a
second, overlap-only chunk may be produced). -/
theorem chunk_text_empty_and_single (text : Text) (cs ov : ℕ) (h : ov < cs) :
    (pySplit text = [] → chunk_text text cs ov = some []) ∧
    ((pySplit text).length ≠ 0 → (pySplit text).length ≤ cs - ov →
      chunk_text text cs ov = some [joinWords (pySplit text)]) := by
  constructor
  · intro hempty
    rw [chunk_text_eq_chunkWords text h, chunkWords, if_neg (by simp [hempty])]
  · intro hne hlen
    rw [chunk_text_eq_chunkWords text h, chunkWords, if_pos (by omega)]
    rw [chunkWords, if_neg (by omega)]
    rw [List.drop_zero, List.take_of_length_le (by omega)]

/-- Witness for C7 at `text = "a"`, `window_size = 3`, `overlap = 1`. -/
theorem chunk_text_empty_and_single_witness :
    chunk_text (strL "a") 3 1 = some [joinWords (pySplit (strL "a"))] :=
  (chunk_text_empty_and_single (strL "a") 3 1 (by decide)).2 (by decide) (by decide)

/-- C10: chunking only depends on the whitespace-split word sequence, so it
is invariant under whitespace normalization of its input; and every chunk
the chunker produces is a single-space join of non-empty, whitespace-free
words. -/
theorem chunk_text_whitespace_invariant :
    (∀ (text : Text) (cs ov : ℕ), chunk_text (normWs text) cs ov = chunk_text text cs ov) ∧
    (∀ (text : Text) (cs ov : ℕ) (chunks : List Text),
      chunk_text text cs ov = some chunks →
      ∀ c ∈ chunks, ∃ ws : List Text, (∀ w ∈ ws, goodWord w) ∧ c = joinWords ws) := by
  constructor
  · intro text cs ov
    unfold chunk_text
    rw [pySplit_normWs]
  · intro text cs ov chunks hc c hmem
    exact chunkLoopFuel_chunks_joined (pySplit_good text) _ 0 chunks hc c hmem

/-- Witness for C10 at `text = " a  b"`, `window_size = 2`, `overlap = 1`. -/
theorem chunk_text_whitespace_invariant_witness :
    chunk_text (normWs (strL " a  b")) 2 1 = chunk_text (strL " a  b") 2 1 ∧
      (∃ ws : List Text, (∀ w ∈ ws, goodWord w) ∧ strL "a b" = joinWords ws) :=
  ⟨chunk_text_whitespace_invariant.1 (strL " a  b") 2 1,
    chunk_text_whitespace_invariant.2 (strL " a  b") 2 1 [strL "a b", strL "b"]
      (by decide) (strL "a b") (by decide)⟩

/-! ### The summarization reducer -/

theorem summarize_large_text_succ_some (fn : Text → Option Text) (maxw fuel : ℕ)
    (text : Text) (chunks : List Text) (hc : chunk_text text maxw 200 = some chunks) :
    summarize_large_text fn maxw (fuel + 1) text =
      if maxw < (pySplit (joinWords (chunks.filterMap fn))).length then
        summarize_large_text fn maxw fuel (joinWords (chunks.filterMap fn))
      else some (joinWords (chunks.filterMap fn)) := by
  simp only [summarize_large_text, hc]

theorem summarize_large_text_succ_none (fn : Text → Option Text) (maxw fuel : ℕ)
    (text : Text) (hc : chunk_text text maxw 200 = none) :
    summarize_large_text fn maxw (fuel + 1) text = none := by
  simp only [summarize_large_text, hc]

theorem good_take_drop (text : Text) (s c : ℕ) :
    ∀ w ∈ ((pySplit text).drop s).take c, goodWord w :=
  fun w hw => pySplit_good text w (List.mem_of_mem_drop (List.mem_of_mem_take hw))

/-- C9: whenever the recursive summarization returns a result at all, the
returned summary has at most `max_chunk_words` words — the recursion only
stops once the combined summary is short enough. -/
theorem summarize_large_text_wordcount_le (fn : Text → Option Text) (maxw : ℕ)
    (_hpos : 0 < maxw) :
    ∀ (fuel : ℕ) (text s : Text),
      summarize_large_text fn maxw fuel text = some s → (pySplit s).length ≤ maxw := by
  intro fuel
  induction fuel with
  | zero =>
    intro text s h
    exact absurd h (by simp [summarize_large_text])
  | succ fuel ih =>
    intro text s h
    cases hc : chunk_text text maxw 200 with
    | none =>
      rw [summarize_large_text_succ_none fn maxw fuel text hc] at h
      exact absurd h (by simp)
    | some chunks =>
      rw [summarize_large_text_succ_some fn maxw fuel text chunks hc] at h
      by_cases hgt : maxw < (pySplit (joinWords (chunks.filterMap fn))).length
      · rw [if_pos hgt] at h
        exact ih _ _ h
      · rw [if_neg hgt] at h
        rw [Option.some.injEq] at h
        subst h
        omega

/-- Witness for C9 at the all-failing summarizer, `max_chunk_words = 1`,
empty text. -/
theorem summarize_large_text_wordcount_le_witness :
    (pySplit ([] : Text)).length ≤ 1 :=
  summarize_large_text_wordcount_le (fun _ => none) 1 (by decide) 1 [] []
    (by decide)

/-- C6 counterexample: with `max_chunk_words = 100` (not exceeding the fixed
chunking overlap 200) and the always-failing summarizer, the reducer on the
one-word text `"a"` does not return an empty summary — its chunking loop
never terminates, so no result is produced even with a round budget of
1000. -/
theorem summarize_all_fail_small_window_no_result :
    summarize_large_text (fun _ => none) 100 1000 (strL "a") = none := by
  have hchunk : chunk_text (strL "a") 100 200 = none := by
    unfold chunk_text
    exact chunkLoopFuel_eq_none_of_stride_nonpos (by decide) _ 0 (by decide)
  exact summarize_large_text_succ_none _ 100 999 _ hchunk

/-- C6 amended: for `max_chunk_words` above the fixed overlap 200 (so that
chunking terminates), if the summarizer fails on every chunk, the reducer
returns the empty summary after one round instead of raising; individual
chunk failures are skipped via `filterMap` and never abort processing. -/
theorem summarize_all_fail_returns_empty (fn : Text → Option Text) (maxw : ℕ)
    (h : 200 < maxw) (hfn : ∀ c, fn c = none) (fuel : ℕ) (text : Text) :
    summarize_large_text fn maxw (fuel + 1) text = some [] := by
  have hfm : ∀ l : List Text, l.filterMap fn = [] := by
    intro l
    induction l with
    | nil => rfl
    | cons a l ih => rw [List.filterMap_cons, hfn a, ih]
  rw [summarize_large_text_succ_some fn maxw fuel text _ (chunk_text_eq_chunkWords text h)]
  rw [hfm]
  simp [joinWords, pySplit_nil]

/-- Witness for C6 amended at `max_chunk_words = 201`, text `"a"`. -/
theorem summarize_all_fail_returns_empty_witness :
    summarize_large_text (fun _ => none) 201 1 (strL "a") = some [] :=
  summarize_all_fail_returns_empty (fun _ => none) 201 (by decide) (fun _ => rfl) 0
    (strL "a")

/-- C4 counterexample: the 2-word text `"a b"` (word count at most
`max_chunk_words = 201`), summarized with the identity summarizer, is NOT
returned unchanged: the second overlap-window chunk `"b"` is concatenated
again, producing `"a b b"` (one round, but a different text). -/
theorem summarize_identity_not_unchanged :
    summarize_large_text some 201 1 (strL "a b") = some (strL "a b b") ∧
      strL "a b b" ≠ strL "a b" := by decide

/-- C4 amended: with the identity summarizer and a word count of at most
`max_chunk_words - 200` (so a single chunk is produced; 200 is the fixed
overlap), the reducer returns the single-space join of the input's words —
the input itself whenever it is whitespace-normalized — after exactly one
round (round budget 1 suffices, so no recursive call is made). -/
theorem summarize_identity_small_input (maxw : ℕ) (h : 200 < maxw) (text : Text)
    (hlen : (pySplit text).length ≤ maxw - 200) :
    summarize_large_text some maxw 1 text = some (joinWords (pySplit text)) := by
  by_cases hempty : (pySplit text).length = 0
  · have hW : pySplit text = [] := List.length_eq_zero.mp hempty
    have hc : chunk_text text maxw 200 = some [] := by
      rw [chunk_text_eq_chunkWords text h]
      congr 1
      rw [chunkWords, if_neg (by omega)]
    rw [summarize_large_text_succ_some some maxw 0 text [] hc]
    simp [joinWords, pySplit_nil, hW]
  · have hc : chunk_text text maxw 200 = some [joinWords (pySplit text)] := by
      rw [chunk_text_eq_chunkWords text h]
      congr 1
      rw [chunkWords, if_pos (by omega), chunkWords, if_neg (by omega), List.drop_zero,
        List.take_of_length_le (by omega)]
    rw [summarize_large_text_succ_some some maxw 0 text _ hc, List.filterMap_some]
    rw [show joinWords [joinWords (pySplit text)] = joinWords (pySplit text) from rfl]
    rw [pySplit_joinWords (pySplit_good text), if_neg (by omega)]

/-- Witness for C4 amended at `max_chunk_words = 201`, text `"a"`. -/
theorem summarize_identity_small_input_witness :
    summarize_large_text some 201 1 (strL "a") = some (joinWords (pySplit (strL "a"))) :=
  summarize_identity_small_input 201 (by decide) (strL "a") (by decide)

theorem summarize_identity_diverges_core :
    ∀ (fuel : ℕ) (text : Text), 201 < (pySplit text).length →
      summarize_large_text some 201 fuel text = none := by
  intro fuel
  induction fuel with
  | zero => intro text _; rfl
  | succ fuel ih =>
    intro text h201
    have h200 : (200 : ℕ) < 201 := by omega
    rw [summarize_large_text_succ_some some 201 fuel text _
      (chunk_text_eq_chunkWords text h200), List.filterMap_some]
    have hshape : chunkWords (pySplit text) 201 200 h200 0 =
        joinWords (((pySplit text).drop 0).take 201) ::
          joinWords (((pySplit text).drop (0 + (201 - 200))).take 201) ::
            chunkWords (pySplit text) 201 200 h200 (0 + (201 - 200) + (201 - 200)) := by
      rw [chunkWords, if_pos (by omega)]
      rw [chunkWords, if_pos (by omega)]
    have hA : (pySplit (joinWords (((pySplit text).drop 0).take 201))).length = 201 := by
      rw [pySplit_joinWords (good_take_drop text 0 201), List.length_take,
        List.length_drop]
      omega
    have hB : (pySplit (joinWords (((pySplit text).drop (0 + (201 - 200))).take
        201))).length = 201 := by
      rw [pySplit_joinWords (good_take_drop text (0 + (201 - 200)) 201),
        List.length_take, List.length_drop]
      omega
    have hcount :
        201 < (pySplit (joinWords (chunkWords (pySplit text) 201 200 h200 0))).length := by
      rw [hshape, pySplit_joinWords_flatten]
      simp only [List.map_cons, List.flatten_cons, List.length_append]
      omega
    rw [if_pos hcount]
    exact ih _ hcount

/-- C2: the code has no defensive cap on the number of summarization
rounds.  With the identity summarizer (`summarize_fn` returning its chunk
unchanged) and `max_chunk_words = 201`, a 202-word input makes every
round's combined summary longer than `max_chunk_words` again (the 200-word
overlap is concatenated twice), so `summarize_large_text` recurses forever
and returns no best-available intermediate summary for any round budget. -/
theorem summarize_no_recursion_cap (fuel : ℕ) :
    summarize_large_text some 201 fuel (joinWords (List.replicate 202 ['a'])) = none := by
  have hgood : ∀ w ∈ List.replicate 202 (['a'] : Text), goodWord w := by
    intro w hw
    rw [List.eq_of_mem_replicate hw]
    exact ⟨by simp, by decide⟩
  apply summarize_identity_diverges_core
  rw [pySplit_joinWords hgood]
  norm_num

/-! ### The entity aggregator -/

theorem mem_rawEntities {fn : Text → List (Text × Text)} {chunks : List Text}
    {t v : Text} :
    v ∈ rawEntities fn chunks t ↔
      ∃ w, (t, w) ∈ nerSpans fn chunks ∧ v = removeHashes w := by
  unfold rawEntities
  rw [List.mem_toFinset, List.mem_map]
  constructor
  · rintro ⟨p, hp, hv⟩
    rw [List.mem_filter] at hp
    obtain ⟨hmem, hdec⟩ := hp
    have ht : p.1 = t := of_decide_eq_true hdec
    refine ⟨p.2, ?_, hv.symm⟩
    rw [← ht, Prod.mk.eta]
    exact hmem
  · rintro ⟨w, hw, hv⟩
    refine ⟨(t, w), ?_, hv.symm⟩
    rw [List.mem_filter]
    exact ⟨hw, by simp⟩

theorem mem_cleanEntities {s : Finset Text} {v : Text} :
    v ∈ cleanEntities s ↔ ∃ u, u ∈ s ∧ pyStripWs u ≠ [] ∧ v = pyStrip stripSet u := by
  unfold cleanEntities
  rw [Finset.mem_image]
  constructor
  · rintro ⟨u, hu, huv⟩
    rw [Finset.mem_filter] at hu
    exact ⟨u, hu.1, hu.2, huv.symm⟩
  · rintro ⟨u, hus, hne, hv⟩
    exact ⟨u, Finset.mem_filter.mpr ⟨hus, hne⟩, hv.symm⟩

/-- NER stub returning a punctuation-only raw value. -/
def nerDots : Text → List (Text × Text) := fun _ => [(strL "ORG", strL "...")]

/-- C5 counterexample: a raw value `"..."` survives the emptiness check
(`v.strip()` is non-empty) but the subsequent `strip(" ,.'")` reduces it to
the empty string, which therefore IS stored in the per-type set of the
returned EntityIndex — refuting the claim that every stored value is
non-empty. -/
theorem extract_entities_stores_empty_value :
    Option.any (fun e => decide (([] : Text) ∈ e (strL "ORG")))
      (extract_legal_entities nerDots (strL "x") 201) = true := by decide

/-- C5 amended: every value stored in the EntityIndex is the
`" ,.'"`-stripped form of a marker-stripped raw value that was non-empty
after whitespace stripping; raw values that whitespace-strip to empty are
discarded, but a stored value may itself be empty (when the raw value
consists only of the characters space, comma, period, apostrophe). -/
theorem extract_entities_value_characterization (fn : Text → List (Text × Text))
    (text : Text) (cs : ℕ) (e : Text → Finset Text) (t v : Text)
    (he : extract_legal_entities fn text cs = some e) (hv : v ∈ e t) :
    ∃ chunks w, chunk_text text cs 200 = some chunks ∧
      (t, w) ∈ nerSpans fn chunks ∧
      pyStripWs (removeHashes w) ≠ [] ∧ v = pyStrip stripSet (removeHashes w) := by
  unfold extract_legal_entities at he
  cases hc : chunk_text text cs 200 with
  | none => rw [hc] at he; exact absurd he (by simp)
  | some chunks =>
    rw [hc] at he
    simp only [Option.map_some', Option.some.injEq] at he
    subst he
    simp only [] at hv
    rw [mem_cleanEntities] at hv
    obtain ⟨u, hu, hne, hveq⟩ := hv
    rw [mem_rawEntities] at hu
    obtain ⟨w, hw, hueq⟩ := hu
    subst hueq
    exact ⟨chunks, w, rfl, hw, hne, hveq⟩

/-- NER stub returning an ordinary raw value. -/
def nerAcme1 : Text → List (Text × Text) := fun _ => [(strL "ORG", strL "Acme")]

/-- Witness for C5 amended at a single-chunk document. -/
theorem extract_entities_value_characterization_witness :
    ∃ chunks w, chunk_text (strL "x") 201 200 = some chunks ∧
      (strL "ORG", w) ∈ nerSpans nerAcme1 chunks ∧
      pyStripWs (removeHashes w) ≠ [] ∧
      strL "Acme" = pyStrip stripSet (removeHashes w) :=
  extract_entities_value_characterization nerAcme1 (strL "x") 201 _ (strL "ORG")
    (strL "Acme") rfl (by decide)

/-- The first chunk of `acmeText` under window 201, overlap 200. -/
def chunkA : Text := joinWords (strL "b" :: List.replicate 200 (strL "a"))

/-- The second (adjacent, overlapping) chunk of `acmeText`. -/
def chunkB : Text := joinWords (List.replicate 201 (strL "a"))

/-- A 202-word document, so that window 201 with overlap 200 produces at
least two overlapping chunks. -/
def acmeText : Text := joinWords (strL "b" :: List.replicate 201 (strL "a"))

/-- NER stub: the span `("ORG", "Acme Corp.")` on the first chunk and
`("ORG", "Acme Corp")` on the adjacent overlapping second chunk. -/
def nerAcme2 : Text → List (Text × Text) := fun c =>
  if c = chunkA then [(strL "ORG", strL "Acme Corp.")]
  else if c = chunkB then [(strL "ORG", strL "Acme Corp")]
  else []

/-- C8: the aggregator deduplicates values that are equal after
normalization: with `ner_fn` returning `("ORG", "Acme Corp.")` for one
chunk and `("ORG", "Acme Corp")` for the adjacent overlapping chunk, the
resulting `"ORG"` set is exactly the one normalized value `"Acme Corp"`. -/
theorem extract_entities_dedup_normalized :
    Option.any (fun e => decide (e (strL "ORG") = {strL "Acme Corp"}))
      (extract_legal_entities nerAcme2 acmeText 201) = true := by decide

